import Mathlib

/-!
Verification of the toy cooperative executor + timer subsystem of
`src/2_primitives_and_tools/2_13_new_futures/src/main.rs`.

The Rust file declares modules `async`, `exec`, `toy`, `wake` whose sources are
absent from the repository; the definitions taken from those modules are marked
`Modelled from the spec:` below.  Everything else is translated directly from
`main.rs`.

Machine integers (`usize` task ids, `Instant` deadlines) are modelled as `Nat`
(an `Instant` is an opaque monotonic point in time, compared with `≤`/`<`;
`Nat` carries exactly that order structure).  `HashMap` becomes an association
list, `HashSet` a duplicate-free list with deduplicating insert, `BTreeMap` a
key-sorted association list.  A Rust panic is modelled as `Option.none` /
a dedicated `fatal` outcome.
-/

namespace ToyFutures

/-- Modelled from the spec: the `Async` enum lives in the missing module
`async.rs`; per the spec (§4.1) a poll reports either still-pending or done. -/
inductive Async where
  | Pending : Async
  | Done : Async
deriving DecidableEq, Repr

/-- Modelled from the spec: the `ToyTask` trait lives in the missing module
`toy.rs`.  Per the spec (§4.1) a task exposes one stateful operation
`poll(wake) -> {Pending, Done}` and may invoke wake handles during a poll.
We embed a task as its poll behaviour: `polls n` is the outcome of the n-th
poll — the status returned together with the task ids whose wake handles the
task invokes during that poll — and `count` is how many polls have happened. -/
structure ToyTask where
  polls : Nat → Async × List Nat
  count : Nat

/-- Status returned by the next poll of `t`. -/
def ToyTask.pollResult (t : ToyTask) : Async := (t.polls t.count).1

/-- Task ids woken (via their wake handles) during the next poll of `t`. -/
def ToyTask.pollWakes (t : ToyTask) : List Nat := (t.polls t.count).2

/-- The task after one poll (its internal state advanced by one step). -/
def ToyTask.afterPoll (t : ToyTask) : ToyTask := { t with count := t.count + 1 }

/-- Modelled from the spec: `Waker` lives in the missing module `wake.rs`.
Per the spec (§3, §4.2) a wake handle is "(TaskId, reference to
ExecutorState)"; the executor-state reference is implicit in our embedding
(wakes act on the state they are applied to), so the handle carries the id. -/
structure Waker where
  id : Nat
deriving DecidableEq, Repr

/-- `TaskEntry` from `main.rs` (lines 33‑36): the boxed task plus its waker. -/
structure TaskEntry where
  task : ToyTask
  wake : Waker

/-- `ExecState` from the missing module `exec.rs`; its fields are fixed by the
initializer in `ToyExec::new` (main.rs lines 47‑56): `next_id`, `tasks`
(HashMap TaskId → TaskEntry), `ready` (HashSet TaskId), and the carrier thread
handle.  The thread handle only serves park/unpark and carries no data, so it
is omitted from the state. -/
structure ExecState where
  next_id : Nat
  tasks : List (Nat × TaskEntry)
  ready : List Nat

/-- HashMap lookup on the association-list model. -/
def mapGet {α : Type} : List (Nat × α) → Nat → Option α
  | [], _ => none
  | kv :: rest, id => if kv.1 = id then some kv.2 else mapGet rest id

/-- HashMap `remove`: drops every pair with the given key. -/
def mapRemove {α : Type} : List (Nat × α) → Nat → List (Nat × α)
  | [], _ => []
  | kv :: rest, id => if kv.1 = id then mapRemove rest id else kv :: mapRemove rest id

/-- HashMap `insert`: replaces any existing binding of the key. -/
def mapInsert {α : Type} (m : List (Nat × α)) (id : Nat) (v : α) : List (Nat × α) :=
  mapRemove m id ++ [(id, v)]

/-- HashSet `insert`: deduplicating — a present element is not added again. -/
def readyInsert (r : List Nat) (id : Nat) : List Nat :=
  if id ∈ r then r else r ++ [id]

/-- Modelled from the spec: `ExecState::wake_task` lives in the missing module
`exec.rs`.  Per the spec (§3, §4.2) invoking a wake handle "marks the TaskId
ready in ExecutorState and unparks the run-loop thread"; unparking has no
effect on the executor state, so waking is exactly the ready-set insert. -/
def ExecState.wake_task (s : ExecState) (id : Nat) : ExecState :=
  { s with ready := readyInsert s.ready id }

/-- Apply a sequence of wake calls to the state. -/
def applyWakes (s : ExecState) (ws : List Nat) : ExecState :=
  ws.foldl ExecState.wake_task s

/-- One step of the drain loop in `ToyExec::run` (main.rs lines 73‑83): remove
the id's `TaskEntry` from the registry; if absent, skip; otherwise poll the
taken-out entry (its wake calls land in the current — freshly swapped-in —
ready set) and reinsert it only when the poll returned `Pending`. -/
def pollOne (s : ExecState) (id : Nat) : ExecState :=
  match mapGet s.tasks id with
  | none => s
  | some entry =>
    let s1 : ExecState := { s with tasks := mapRemove s.tasks id }
    let s2 : ExecState := applyWakes s1 entry.task.pollWakes
    match entry.task.pollResult with
    | Async.Pending =>
        { s2 with tasks := mapInsert s2.tasks id { entry with task := entry.task.afterPoll } }
    | Async.Done => s2

/-- The `for id in ready.drain()` loop over the captured snapshot. -/
def drainBatch (s : ExecState) (ids : List Nat) : ExecState :=
  ids.foldl pollOne s

/-- One iteration of `ToyExec::run` (main.rs lines 66‑88): swap the ready set
out for an empty one (`mem::replace`), drain the captured snapshot, then park.
`ext` are the ids woken by other threads (e.g. the timer worker) during this
batch; wake calls only touch the (new) ready set and commute with the polls of
the batch up to list order, so they are applied after the drain. -/
def runIter (s : ExecState) (ext : List Nat) : ExecState :=
  applyWakes (drainBatch { s with ready := [] } s.ready) ext

/-- `ToyExec::spawn` (main.rs lines 93‑116): take the next id, bump the
counter, build the entry with a fresh waker carrying the id, insert it into
the registry and wake the id so that it is polled on the next batch. -/
def spawn (s : ExecState) (t : ToyTask) : ExecState :=
  let id := s.next_id
  let s1 : ExecState := { s with next_id := s.next_id + 1 }
  let entry : TaskEntry := { task := t, wake := { id := id } }
  let s2 : ExecState := { s1 with tasks := mapInsert s1.tasks id entry }
  s2.wake_task id

/-- `n` successive invocations of the same wake handle. -/
def wakeN (s : ExecState) (id : Nat) : Nat → ExecState
  | 0 => s
  | n + 1 => (wakeN s id n).wake_task id

/-!  Small-step control-flow machine for `ToyExec::run` (main.rs lines 65‑89).
It exposes the mid-batch configurations — in particular the moment a task has
been taken out of the registry and is being polled — which the batch-level
function `runIter` hides. -/

/-- Program points of the run loop. -/
inductive Phase where
  /-- top of `loop`: about to `mem::replace` the ready set. -/
  | top : Phase
  /-- iterating the captured snapshot; the list holds the ids not yet drained. -/
  | drain : List Nat → Phase
  /-- `entry.task.poll(&entry.wake)` in flight: the entry has been removed from
  the registry and is exclusively owned by the loop body. -/
  | polling : Nat → TaskEntry → List Nat → Phase
  /-- `thread::park()`: blocked until a wake unparks the carrier thread. -/
  | parked : Phase

/-- A configuration of the run loop: program point plus executor state. -/
structure Config where
  phase : Phase
  state : ExecState

/-- One step of the run loop of `ToyExec::run`, plus an interleaved external
wake step (`extWake`): a wake handle may fire from another thread at any
program point.  `unpark` covers both a genuine unpark and a spurious return
of `thread::park()`. -/
inductive Step : Config → Config → Prop where
  | swap (s : ExecState) :
      Step ⟨Phase.top, s⟩ ⟨Phase.drain s.ready, { s with ready := [] }⟩
  | skipAbsent (s : ExecState) (id : Nat) (rest : List Nat)
      (h : mapGet s.tasks id = none) :
      Step ⟨Phase.drain (id :: rest), s⟩ ⟨Phase.drain rest, s⟩
  | takeEntry (s : ExecState) (id : Nat) (rest : List Nat) (e : TaskEntry)
      (h : mapGet s.tasks id = some e) :
      Step ⟨Phase.drain (id :: rest), s⟩
        ⟨Phase.polling id e rest, { s with tasks := mapRemove s.tasks id }⟩
  | finishPending (s : ExecState) (id : Nat) (e : TaskEntry) (rest : List Nat)
      (h : e.task.pollResult = Async.Pending) :
      Step ⟨Phase.polling id e rest, s⟩
        ⟨Phase.drain rest,
          { applyWakes s e.task.pollWakes with
            tasks := mapInsert (applyWakes s e.task.pollWakes).tasks id
              { e with task := e.task.afterPoll } }⟩
  | finishDone (s : ExecState) (id : Nat) (e : TaskEntry) (rest : List Nat)
      (h : e.task.pollResult = Async.Done) :
      Step ⟨Phase.polling id e rest, s⟩ ⟨Phase.drain rest, applyWakes s e.task.pollWakes⟩
  | park (s : ExecState) :
      Step ⟨Phase.drain [], s⟩ ⟨Phase.parked, s⟩
  | unpark (s : ExecState) :
      Step ⟨Phase.parked, s⟩ ⟨Phase.top, s⟩
  | extWake (p : Phase) (s : ExecState) (id : Nat) :
      Step ⟨p, s⟩ ⟨p, s.wake_task id⟩

/-- The aliasing invariant: whenever a task is being polled, its id is absent
from the registry (the entry was taken out first). -/
def NotBoth (c : Config) : Prop :=
  ∀ id e rest, c.phase = Phase.polling id e rest → mapGet c.state.tasks id = none

/-!  Timer service (`Registration`, `ToyTimer`, `Worker`, main.rs lines
123‑195).  `Instant` is a `Nat`; the `Waker` stored in the map is represented
by the task id it wakes.  The `BTreeMap<Instant, Waker>` is a key-sorted
association list, so its first key is the smallest (`keys().next()`). -/

/-- `Registration` (main.rs lines 123‑126): a deadline paired with a waker.
(`at` is a reserved word in Lean, hence the underscore.) -/
structure Registration where
  at_ : Nat
  wake : Nat
deriving DecidableEq, Repr

/-- Key-sortedness: the `BTreeMap` representation invariant. -/
def btSorted (l : List (Nat × Nat)) : Prop :=
  l.Pairwise (fun a b => a.1 < b.1)

/-- `BTreeMap::insert` on the sorted-list model (replaces an equal key). -/
def btInsert : List (Nat × Nat) → Nat → Nat → List (Nat × Nat)
  | [], k, v => [(k, v)]
  | kv :: rest, k, v =>
    if k < kv.1 then (k, v) :: kv :: rest
    else if k = kv.1 then (k, v) :: rest
    else kv :: btInsert rest k v

/-- `BTreeMap` lookup. -/
def btLookup : List (Nat × Nat) → Nat → Option Nat
  | [], _ => none
  | kv :: rest, k => if kv.1 = k then some kv.2 else btLookup rest k

/-- `BTreeMap::remove` (drops every pair with the key). -/
def btRemove : List (Nat × Nat) → Nat → List (Nat × Nat)
  | [], _ => []
  | kv :: rest, k => if kv.1 = k then btRemove rest k else kv :: btRemove rest k

/-- `self.active.keys().next()`: the smallest key of the sorted map. -/
def btMinKey (l : List (Nat × Nat)) : Option Nat :=
  l.head?.map Prod.fst

/-- `Worker::enroll` (main.rs lines 161‑167): insert the registration; if
`insert` returned a previous value — a duplicate deadline — the worker
panics (`none`). -/
def enroll (active : List (Nat × Nat)) (item : Registration) : Option (List (Nat × Nat)) :=
  if (btLookup active item.at_).isSome then none
  else some (btInsert active item.at_ item.wake)

/-- `Worker::fire` (main.rs lines 169‑171): `remove(&key).unwrap().wake()`; a
missing key would panic (`none`), otherwise return the shrunk map and the
woken waker. -/
def fire (active : List (Nat × Nat)) (key : Nat) : Option (List (Nat × Nat) × Nat) :=
  match btLookup active key with
  | none => none
  | some w => some (btRemove active key, w)

/-- What the registration channel delivers during one cycle: a message, a
lapse of the `recv_timeout` window with nothing received (`silent`), or the
disconnection of every sender (`closed`).  A blocking `recv()` never returns
without a message, so `silent` cannot reach the `recv()` branch on a real
channel; the model keeps the worker blocked (no observable transition)
should it be supplied there. -/
inductive ChanEvent where
  | msg : Registration → ChanEvent
  | silent : ChanEvent
  | closed : ChanEvent
deriving DecidableEq, Repr

/-- Outcome of one cycle of `Worker::work`: the new deadline map plus the
waker fired this cycle (if any), or a fatal panic. -/
inductive WorkOutcome where
  | ok : List (Nat × Nat) → Option Nat → WorkOutcome
  | fatal : WorkOutcome
deriving DecidableEq, Repr

/-- One cycle of the `loop` in `Worker::work` (main.rs lines 173‑194).
With a smallest deadline `first`: if `first ≤ now`, fire it; otherwise
`recv_timeout(first - now)` — a received registration is enrolled, while both
`Err(Timeout)` and `Err(Disconnected)` fall through the `if let Ok` silently.
With no deadline at all: `recv().unwrap()` — a received registration is
enrolled and a disconnected channel panics the worker. -/
def workStep (active : List (Nat × Nat)) (now : Nat) (ev : ChanEvent) : WorkOutcome :=
  match btMinKey active with
  | some first =>
    if first ≤ now then
      match fire active first with
      | some (act, w) => WorkOutcome.ok act (some w)
      | none => WorkOutcome.fatal
    else
      match ev with
      | ChanEvent.msg r =>
        match enroll active r with
        | some act => WorkOutcome.ok act none
        | none => WorkOutcome.fatal
      | ChanEvent.silent => WorkOutcome.ok active none
      | ChanEvent.closed => WorkOutcome.ok active none
  | none =>
    match ev with
    | ChanEvent.msg r =>
      match enroll active r with
      | some act => WorkOutcome.ok act none
      | none => WorkOutcome.fatal
    | ChanEvent.silent => WorkOutcome.ok active none
    | ChanEvent.closed => WorkOutcome.fatal

/-- `mpsc::Sender::send`: fails exactly when the receiving side is gone. -/
def chanSend (receiver_alive : Bool) (r : Registration) : Option Registration :=
  if receiver_alive then some r else none

/-- `ToyTimer::register` (main.rs lines 155‑157):
`self.tx.send(Registration { at, wake }).unwrap()` — the `unwrap` panics
(`none`) when the send fails because the worker (the receiver) is gone. -/
def register (receiver_alive : Bool) (at_ : Nat) (wake : Nat) : Option Unit :=
  match chanSend receiver_alive { at_ := at_, wake := wake } with
  | some _ => some ()
  | none => none

/-!  Basic lemmas about the collection models. -/

theorem readyInsert_mem (r : List Nat) (i a : Nat) :
    a ∈ readyInsert r i ↔ a ∈ r ∨ a = i := by
  by_cases h : i ∈ r
  · simp only [readyInsert, if_pos h]
    constructor
    · exact Or.inl
    · rintro (ha | rfl)
      · exact ha
      · exact h
  · simp [readyInsert, if_neg h]

theorem readyInsert_nodup (r : List Nat) (i : Nat) (h : r.Nodup) :
    (readyInsert r i).Nodup := by
  by_cases hi : i ∈ r
  · simpa [readyInsert, if_pos hi] using h
  · rw [readyInsert, if_neg hi]
    refine List.Nodup.append h (List.nodup_singleton i) ?_
    intro a ha hai
    rw [List.mem_singleton] at hai
    exact hi (hai ▸ ha)

theorem readyInsert_idem (r : List Nat) (i : Nat) :
    readyInsert (readyInsert r i) i = readyInsert r i := by
  have hi : i ∈ readyInsert r i := (readyInsert_mem r i i).mpr (Or.inr rfl)
  conv_lhs => rw [readyInsert]
  rw [if_pos hi]

theorem wake_task_tasks (s : ExecState) (i : Nat) :
    (s.wake_task i).tasks = s.tasks := rfl

theorem wake_task_next_id (s : ExecState) (i : Nat) :
    (s.wake_task i).next_id = s.next_id := rfl

theorem wake_task_ready_mem (s : ExecState) (i a : Nat) :
    a ∈ (s.wake_task i).ready ↔ a ∈ s.ready ∨ a = i :=
  readyInsert_mem s.ready i a

theorem applyWakes_tasks (ws : List Nat) (s : ExecState) :
    (applyWakes s ws).tasks = s.tasks := by
  induction ws generalizing s with
  | nil => rfl
  | cons w rest ih => simpa [applyWakes, List.foldl_cons] using ih (s.wake_task w)

theorem applyWakes_next_id (ws : List Nat) (s : ExecState) :
    (applyWakes s ws).next_id = s.next_id := by
  induction ws generalizing s with
  | nil => rfl
  | cons w rest ih => simpa [applyWakes, List.foldl_cons] using ih (s.wake_task w)

theorem applyWakes_ready_mem (ws : List Nat) (s : ExecState) (a : Nat) :
    a ∈ (applyWakes s ws).ready ↔ a ∈ s.ready ∨ a ∈ ws := by
  induction ws generalizing s with
  | nil => simp [applyWakes]
  | cons w rest ih =>
    simp only [applyWakes, List.foldl_cons] at *
    rw [ih (s.wake_task w), wake_task_ready_mem]
    simp only [List.mem_cons]
    tauto

theorem applyWakes_ready_nodup (ws : List Nat) (s : ExecState) (h : s.ready.Nodup) :
    (applyWakes s ws).ready.Nodup := by
  induction ws generalizing s with
  | nil => exact h
  | cons w rest ih =>
    simpa [applyWakes, List.foldl_cons] using
      ih (s.wake_task w) (readyInsert_nodup s.ready w h)

theorem mapGet_remove_self {α : Type} (m : List (Nat × α)) (i : Nat) :
    mapGet (mapRemove m i) i = none := by
  induction m with
  | nil => rfl
  | cons kv rest ih =>
    by_cases h : kv.1 = i
    · simpa [mapRemove, h] using ih
    · simpa [mapRemove, mapGet, h] using ih

theorem mapGet_remove_other {α : Type} (m : List (Nat × α)) (i j : Nat) (h : i ≠ j) :
    mapGet (mapRemove m j) i = mapGet m i := by
  induction m with
  | nil => rfl
  | cons kv rest ih =>
    by_cases hk : kv.1 = j
    · have hji : ¬(j = i) := fun hc => h hc.symm
      have hki : kv.1 ≠ i := by rw [hk]; exact hji
      simp [mapRemove, mapGet, hk, hki, hji, ih]
    · by_cases hki : kv.1 = i
      · simp [mapRemove, mapGet, hk, hki, h]
      · simp [mapRemove, mapGet, hk, hki, ih]

theorem mapGet_append {α : Type} (l₁ l₂ : List (Nat × α)) (i : Nat) :
    mapGet (l₁ ++ l₂) i =
      match mapGet l₁ i with
      | some v => some v
      | none => mapGet l₂ i := by
  induction l₁ with
  | nil => simp [mapGet]
  | cons kv rest ih =>
    by_cases h : kv.1 = i
    · simp [mapGet, h]
    · simp [mapGet, h, ih]

theorem mapGet_insert_self {α : Type} (m : List (Nat × α)) (i : Nat) (v : α) :
    mapGet (mapInsert m i v) i = some v := by
  rw [mapInsert, mapGet_append, mapGet_remove_self]
  simp [mapGet]

theorem mapGet_insert_other {α : Type} (m : List (Nat × α)) (i j : Nat) (v : α) (h : i ≠ j) :
    mapGet (mapInsert m j v) i = mapGet m i := by
  rw [mapInsert, mapGet_append, mapGet_remove_other m i j h]
  cases hm : mapGet m i with
  | some w => rfl
  | none => simp [mapGet, Ne.symm h]

/-!  Lemmas about one drain-loop step (`pollOne`). -/

theorem pollOne_absent (s : ExecState) (i : Nat) (h : mapGet s.tasks i = none) :
    pollOne s i = s := by
  unfold pollOne
  rw [h]

theorem pollOne_pending (s : ExecState) (i : Nat) (e : TaskEntry)
    (h : mapGet s.tasks i = some e) (hp : e.task.pollResult = Async.Pending) :
    mapGet (pollOne s i).tasks i = some { e with task := e.task.afterPoll } := by
  unfold pollOne
  rw [h]
  simp only [hp, mapGet_insert_self]

theorem pollOne_done (s : ExecState) (i : Nat) (e : TaskEntry)
    (h : mapGet s.tasks i = some e) (hd : e.task.pollResult = Async.Done) :
    mapGet (pollOne s i).tasks i = none := by
  unfold pollOne
  rw [h]
  simp only [hd, applyWakes_tasks, mapGet_remove_self]

theorem pollOne_get_other (s : ExecState) (i j : Nat) (h : i ≠ j) :
    mapGet (pollOne s j).tasks i = mapGet s.tasks i := by
  unfold pollOne
  cases hm : mapGet s.tasks j with
  | none => rfl
  | some e =>
    cases hp : e.task.pollResult with
    | Pending =>
      simp only [hp, mapGet_insert_other _ i j _ h, applyWakes_tasks,
        mapGet_remove_other s.tasks i j h]
    | Done =>
      simp only [hp, applyWakes_tasks, mapGet_remove_other s.tasks i j h]

theorem pollOne_next_id (s : ExecState) (i : Nat) :
    (pollOne s i).next_id = s.next_id := by
  unfold pollOne
  cases hm : mapGet s.tasks i with
  | none => rfl
  | some e =>
    cases hp : e.task.pollResult with
    | Pending => simp only [hp, applyWakes_next_id]
    | Done => simp only [hp, applyWakes_next_id]

theorem pollOne_ready_mem (s : ExecState) (i a : Nat) :
    a ∈ (pollOne s i).ready ↔
      a ∈ s.ready ∨ ∃ e, mapGet s.tasks i = some e ∧ a ∈ e.task.pollWakes := by
  unfold pollOne
  cases hm : mapGet s.tasks i with
  | none => simp
  | some e =>
    cases hp : e.task.pollResult with
    | Pending => simp [hp, applyWakes_ready_mem]
    | Done => simp [hp, applyWakes_ready_mem]

theorem pollOne_ready_nodup (s : ExecState) (i : Nat) (h : s.ready.Nodup) :
    (pollOne s i).ready.Nodup := by
  unfold pollOne
  cases hm : mapGet s.tasks i with
  | none => exact h
  | some e =>
    cases hp : e.task.pollResult with
    | Pending =>
      simp only [hp]
      exact applyWakes_ready_nodup _ _ h
    | Done =>
      simp only [hp]
      exact applyWakes_ready_nodup _ _ h

theorem pollOne_absent_preserved (s : ExecState) (i j : Nat)
    (h : mapGet s.tasks i = none) :
    mapGet (pollOne s j).tasks i = none := by
  by_cases hij : i = j
  · subst hij
    rw [pollOne_absent s i h]
    exact h
  · rw [pollOne_get_other s i j hij]
    exact h

/-!  Lemmas about the whole drain loop (`drainBatch`). -/

theorem drainBatch_cons (s : ExecState) (j : Nat) (rest : List Nat) :
    drainBatch s (j :: rest) = drainBatch (pollOne s j) rest := rfl

theorem drain_get_not_mem (ids : List Nat) (s : ExecState) (i : Nat) (h : i ∉ ids) :
    mapGet (drainBatch s ids).tasks i = mapGet s.tasks i := by
  induction ids generalizing s with
  | nil => rfl
  | cons j rest ih =>
    have hij : i ≠ j := fun hc => h (hc ▸ List.mem_cons_self j rest)
    have hrest : i ∉ rest := fun hc => h (List.mem_cons_of_mem j hc)
    rw [drainBatch_cons, ih (pollOne s j) hrest, pollOne_get_other s i j hij]

theorem drain_next_id (ids : List Nat) (s : ExecState) :
    (drainBatch s ids).next_id = s.next_id := by
  induction ids generalizing s with
  | nil => rfl
  | cons j rest ih =>
    rw [drainBatch_cons, ih (pollOne s j), pollOne_next_id]

theorem drain_pending (ids : List Nat) (s : ExecState) (i : Nat) (e : TaskEntry)
    (hnd : ids.Nodup) (hmem : i ∈ ids) (he : mapGet s.tasks i = some e)
    (hp : e.task.pollResult = Async.Pending) :
    mapGet (drainBatch s ids).tasks i = some { e with task := e.task.afterPoll } := by
  induction ids generalizing s with
  | nil => cases hmem
  | cons j rest ih =>
    rw [drainBatch_cons]
    rcases List.mem_cons.mp hmem with hij | hrest
    · subst hij
      have hnr : i ∉ rest := (List.nodup_cons.mp hnd).1
      rw [drain_get_not_mem rest (pollOne s i) i hnr]
      exact pollOne_pending s i e he hp
    · have hij : i ≠ j := by
        rintro rfl
        exact (List.nodup_cons.mp hnd).1 hrest
      have he' : mapGet (pollOne s j).tasks i = some e := by
        rw [pollOne_get_other s i j hij]; exact he
      exact ih (pollOne s j) (List.nodup_cons.mp hnd).2 hrest he'

theorem drain_done (ids : List Nat) (s : ExecState) (i : Nat) (e : TaskEntry)
    (hnd : ids.Nodup) (hmem : i ∈ ids) (he : mapGet s.tasks i = some e)
    (hd : e.task.pollResult = Async.Done) :
    mapGet (drainBatch s ids).tasks i = none := by
  induction ids generalizing s with
  | nil => cases hmem
  | cons j rest ih =>
    rw [drainBatch_cons]
    rcases List.mem_cons.mp hmem with hij | hrest
    · subst hij
      have hnr : i ∉ rest := (List.nodup_cons.mp hnd).1
      rw [drain_get_not_mem rest (pollOne s i) i hnr]
      exact pollOne_done s i e he hd
    · have hij : i ≠ j := by
        rintro rfl
        exact (List.nodup_cons.mp hnd).1 hrest
      have he' : mapGet (pollOne s j).tasks i = some e := by
        rw [pollOne_get_other s i j hij]; exact he
      exact ih (pollOne s j) (List.nodup_cons.mp hnd).2 hrest he'

theorem drain_absent (ids : List Nat) (s : ExecState) (i : Nat)
    (h : mapGet s.tasks i = none) :
    mapGet (drainBatch s ids).tasks i = none := by
  induction ids generalizing s with
  | nil => exact h
  | cons j rest ih =>
    rw [drainBatch_cons]
    exact ih (pollOne s j) (pollOne_absent_preserved s i j h)

theorem drain_ready_sub (ids : List Nat) (s : ExecState) (a : Nat)
    (hnd : ids.Nodup) (ha : a ∈ (drainBatch s ids).ready) :
    a ∈ s.ready ∨ ∃ i, i ∈ ids ∧ ∃ e, mapGet s.tasks i = some e ∧ a ∈ e.task.pollWakes := by
  induction ids generalizing s with
  | nil => exact Or.inl ha
  | cons j rest ih =>
    rw [drainBatch_cons] at ha
    rcases ih (pollOne s j) (List.nodup_cons.mp hnd).2 ha with hr | ⟨i, hi, e, he, hw⟩
    · rcases (pollOne_ready_mem s j a).mp hr with hr' | ⟨e, he, hw⟩
      · exact Or.inl hr'
      · exact Or.inr ⟨j, List.mem_cons_self j rest, e, he, hw⟩
    · have hij : i ≠ j := by
        rintro rfl
        exact (List.nodup_cons.mp hnd).1 hi
      rw [pollOne_get_other s i j hij] at he
      exact Or.inr ⟨i, List.mem_cons_of_mem j hi, e, he, hw⟩

theorem drain_ready_nodup (ids : List Nat) (s : ExecState) (h : s.ready.Nodup) :
    (drainBatch s ids).ready.Nodup := by
  induction ids generalizing s with
  | nil => exact h
  | cons j rest ih =>
    rw [drainBatch_cons]
    exact ih (pollOne s j) (pollOne_ready_nodup s j h)

/-!  Lemmas about one full run-loop iteration (`runIter`). -/

theorem runIter_next_id (s : ExecState) (ext : List Nat) :
    (runIter s ext).next_id = s.next_id := by
  rw [runIter, applyWakes_next_id, drain_next_id]

theorem runIter_get_not_ready (s : ExecState) (ext : List Nat) (i : Nat)
    (h : i ∉ s.ready) :
    mapGet (runIter s ext).tasks i = mapGet s.tasks i := by
  rw [runIter, applyWakes_tasks, drain_get_not_mem s.ready _ i h]

theorem runIter_pending (s : ExecState) (ext : List Nat) (i : Nat) (e : TaskEntry)
    (hnd : s.ready.Nodup) (hmem : i ∈ s.ready) (he : mapGet s.tasks i = some e)
    (hp : e.task.pollResult = Async.Pending) :
    mapGet (runIter s ext).tasks i = some { e with task := e.task.afterPoll } := by
  rw [runIter, applyWakes_tasks]
  exact drain_pending s.ready _ i e hnd hmem he hp

theorem runIter_done (s : ExecState) (ext : List Nat) (i : Nat) (e : TaskEntry)
    (hnd : s.ready.Nodup) (hmem : i ∈ s.ready) (he : mapGet s.tasks i = some e)
    (hd : e.task.pollResult = Async.Done) :
    mapGet (runIter s ext).tasks i = none := by
  rw [runIter, applyWakes_tasks]
  exact drain_done s.ready _ i e hnd hmem he hd

theorem runIter_absent (s : ExecState) (ext : List Nat) (i : Nat)
    (h : mapGet s.tasks i = none) :
    mapGet (runIter s ext).tasks i = none := by
  rw [runIter, applyWakes_tasks]
  exact drain_absent s.ready _ i h

theorem runIter_ready_sub (s : ExecState) (ext : List Nat) (a : Nat)
    (hnd : s.ready.Nodup) (ha : a ∈ (runIter s ext).ready) :
    a ∈ ext ∨ ∃ i, i ∈ s.ready ∧ ∃ e, mapGet s.tasks i = some e ∧ a ∈ e.task.pollWakes := by
  rw [runIter, applyWakes_ready_mem] at ha
  rcases ha with hd | hext
  · rcases drain_ready_sub s.ready _ a hnd hd with hnil | ⟨i, hi, e, he, hw⟩
    · cases hnil
    · exact Or.inr ⟨i, hi, e, he, hw⟩
  · exact Or.inl hext

/-!  Lemmas about repeated wake calls (`wakeN`) and `spawn`. -/

theorem wakeN_ge_one (s : ExecState) (id n : Nat) (h : 1 ≤ n) :
    wakeN s id n = s.wake_task id := by
  induction n with
  | zero => cases h
  | succ m ih =>
    cases Nat.lt_or_ge 1 (m + 1) with
    | inl hlt =>
      have hm : 1 ≤ m := Nat.lt_succ_iff.mp hlt
      show (wakeN s id m).wake_task id = s.wake_task id
      rw [ih hm]
      show { s with ready := readyInsert (readyInsert s.ready id) id } = _
      rw [readyInsert_idem]
      rfl
    | inr _ =>
      have : m = 0 := by omega
      subst this
      rfl

theorem spawn_next_id (s : ExecState) (t : ToyTask) :
    (spawn s t).next_id = s.next_id + 1 := rfl

theorem spawn_get_new (s : ExecState) (t : ToyTask) :
    mapGet (spawn s t).tasks s.next_id = some { task := t, wake := { id := s.next_id } } := by
  show mapGet (mapInsert s.tasks s.next_id _) s.next_id = _
  rw [mapGet_insert_self]

theorem spawn_get_other (s : ExecState) (t : ToyTask) (k : Nat) (h : k ≠ s.next_id) :
    mapGet (spawn s t).tasks k = mapGet s.tasks k := by
  show mapGet (mapInsert s.tasks s.next_id _) k = _
  rw [mapGet_insert_other _ k s.next_id _ h]

theorem spawn_ready_mem (s : ExecState) (t : ToyTask) (a : Nat) :
    a ∈ (spawn s t).ready ↔ a ∈ s.ready ∨ a = s.next_id := by
  show a ∈ readyInsert s.ready s.next_id ↔ _
  exact readyInsert_mem s.ready s.next_id a

theorem spawn_ready_nodup (s : ExecState) (t : ToyTask) (h : s.ready.Nodup) :
    (spawn s t).ready.Nodup := by
  show (readyInsert s.ready s.next_id).Nodup
  exact readyInsert_nodup s.ready s.next_id h

/-!  Lemmas about the timer worker's sorted deadline map. -/

theorem btLookup_mem (l : List (Nat × Nat)) (k w : Nat) (h : btLookup l k = some w) :
    (k, w) ∈ l := by
  induction l with
  | nil => cases h
  | cons kv rest ih =>
    by_cases hk : kv.1 = k
    · rw [btLookup, if_pos hk] at h
      injection h with h'
      have hkv : kv = (k, w) := by
        cases kv
        simp_all
      rw [← hkv]
      exact List.mem_cons_self _ _
    · rw [btLookup, if_neg hk] at h
      exact List.mem_cons_of_mem kv (ih h)

theorem btMinKey_le (l : List (Nat × Nat)) (hs : btSorted l) (m : Nat)
    (hm : btMinKey l = some m) (k w : Nat) (h : btLookup l k = some w) : m ≤ k := by
  cases l with
  | nil => cases h
  | cons kv rest =>
    have hmk : m = kv.1 := by
      rw [btMinKey] at hm
      simp only [List.head?] at hm
      injection hm with h'
      rw [← h']
    subst hmk
    by_cases hk : kv.1 = k
    · exact Nat.le_of_eq hk
    · rw [btLookup, if_neg hk] at h
      have hmem := btLookup_mem rest k w h
      have hall := (List.pairwise_cons.mp hs).1
      exact Nat.le_of_lt (hall (k, w) hmem)

theorem btMinKey_lookup (l : List (Nat × Nat)) (m : Nat) (hm : btMinKey l = some m) :
    ∃ w, btLookup l m = some w := by
  cases l with
  | nil => cases hm
  | cons kv rest =>
    have hmk : m = kv.1 := by
      rw [btMinKey] at hm
      simp only [List.head?] at hm
      injection hm with h'
      rw [← h']
    subst hmk
    exact ⟨kv.2, by rw [btLookup, if_pos rfl]⟩

theorem btRemove_lookup_other (l : List (Nat × Nat)) (k k' : Nat) (h : k' ≠ k) :
    btLookup (btRemove l k) k' = btLookup l k' := by
  induction l with
  | nil => rfl
  | cons kv rest ih =>
    have hkk : ¬(k = k') := fun hc => h hc.symm
    by_cases hk : kv.1 = k
    · have hki : kv.1 ≠ k' := by rw [hk]; exact fun hc => h hc.symm
      simp [btRemove, btLookup, hk, hki, hkk, ih]
    · by_cases hki : kv.1 = k'
      · simp [btRemove, btLookup, hk, hki, h, ih]
      · simp [btRemove, btLookup, hk, hki, ih]

theorem btInsert_mem (l : List (Nat × Nat)) (k v : Nat) (b : Nat × Nat)
    (hb : b ∈ btInsert l k v) : b = (k, v) ∨ b ∈ l := by
  induction l with
  | nil =>
    rw [btInsert] at hb
    exact Or.inl (List.mem_singleton.mp hb)
  | cons kv rest ih =>
    by_cases hlt : k < kv.1
    · rw [btInsert, if_pos hlt] at hb
      rcases List.mem_cons.mp hb with h' | h'
      · exact Or.inl h'
      · exact Or.inr h'
    · by_cases heq : k = kv.1
      · rw [btInsert, if_neg hlt, if_pos heq] at hb
        rcases List.mem_cons.mp hb with h' | h'
        · exact Or.inl h'
        · exact Or.inr (List.mem_cons_of_mem kv h')
      · rw [btInsert, if_neg hlt, if_neg heq] at hb
        rcases List.mem_cons.mp hb with h' | h'
        · exact Or.inr (h' ▸ List.mem_cons_self kv rest)
        · rcases ih h' with h'' | h''
          · exact Or.inl h''
          · exact Or.inr (List.mem_cons_of_mem kv h'')

theorem btInsert_sorted (l : List (Nat × Nat)) (k v : Nat) (hs : btSorted l) :
    btSorted (btInsert l k v) := by
  induction l with
  | nil => simp [btInsert, btSorted]
  | cons kv rest ih =>
    rcases List.pairwise_cons.mp hs with ⟨hall, hrest⟩
    by_cases hlt : k < kv.1
    · rw [btInsert, if_pos hlt]
      refine List.pairwise_cons.mpr ⟨?_, hs⟩
      intro b hb
      rcases List.mem_cons.mp hb with hb | hb
      · rw [hb]; exact hlt
      · exact Nat.lt_trans hlt (hall b hb)
    · by_cases heq : k = kv.1
      · rw [btInsert, if_neg hlt, if_pos heq]
        refine List.pairwise_cons.mpr ⟨?_, hrest⟩
        intro b hb
        rw [heq]
        exact hall b hb
      · rw [btInsert, if_neg hlt, if_neg heq]
        refine List.pairwise_cons.mpr ⟨?_, ih hrest⟩
        intro b hb
        rcases btInsert_mem rest k v b hb with h' | h'
        · rw [h']
          exact Nat.lt_of_le_of_ne (Nat.le_of_not_lt hlt) (fun hc => heq hc.symm)
        · exact hall b h'

/-!  Characterization of one timer-worker cycle. -/

theorem workStep_fire_due (active : List (Nat × Nat)) (now : Nat) (ev : ChanEvent)
    (first w : Nat) (hmin : btMinKey active = some first) (hdue : first ≤ now)
    (hw : btLookup active first = some w) :
    workStep active now ev = WorkOutcome.ok (btRemove active first) (some w) := by
  unfold workStep
  rw [hmin]
  dsimp only
  rw [if_pos hdue]
  unfold fire
  rw [hw]

theorem workStep_enroll_new (active : List (Nat × Nat)) (now : Nat) (r : Registration)
    (first : Nat) (hmin : btMinKey active = some first) (hnotdue : ¬ first ≤ now)
    (hfresh : btLookup active r.at_ = none) :
    workStep active now (ChanEvent.msg r) =
      WorkOutcome.ok (btInsert active r.at_ r.wake) none := by
  unfold workStep
  rw [hmin]
  dsimp only
  rw [if_neg hnotdue]
  unfold enroll
  rw [hfresh]
  rfl

theorem workStep_fired_is_min (active : List (Nat × Nat)) (now : Nat) (ev : ChanEvent)
    (act : List (Nat × Nat)) (w : Nat)
    (h : workStep active now ev = WorkOutcome.ok act (some w)) :
    ∃ k, btMinKey active = some k ∧ k ≤ now ∧ btLookup active k = some w ∧
      act = btRemove active k := by
  unfold workStep at h
  cases hmin : btMinKey active with
  | none =>
    rw [hmin] at h
    dsimp only at h
    cases ev with
    | msg r =>
      dsimp only at h
      cases he : enroll active r with
      | some a => rw [he] at h; cases h
      | none => rw [he] at h; cases h
    | silent => cases h
    | closed => cases h
  | some first =>
    rw [hmin] at h
    dsimp only at h
    by_cases hdue : first ≤ now
    · rw [if_pos hdue] at h
      unfold fire at h
      cases hw : btLookup active first with
      | none => rw [hw] at h; cases h
      | some w' =>
        rw [hw] at h
        simp only [WorkOutcome.ok.injEq, Option.some.injEq] at h
        exact ⟨first, rfl, hdue, by rw [hw, h.2], h.1.symm⟩
    · rw [if_neg hdue] at h
      cases ev with
      | msg r =>
        dsimp only at h
        cases he : enroll active r with
        | some a => rw [he] at h; cases h
        | none => rw [he] at h; cases h
      | silent => cases h
      | closed => cases h

theorem workStep_closed_empty (now : Nat) :
    workStep [] now ChanEvent.closed = WorkOutcome.fatal := rfl

theorem workStep_closed_waiting (active : List (Nat × Nat)) (now first : Nat)
    (hmin : btMinKey active = some first) (hnotdue : ¬ first ≤ now) :
    workStep active now ChanEvent.closed = WorkOutcome.ok active none := by
  unfold workStep
  rw [hmin]
  dsimp only
  rw [if_neg hnotdue]

/-!  Lemmas about the run-loop machine. -/

theorem step_progress (c : Config) : ∃ c', Step c c' := by
  obtain ⟨p, s⟩ := c
  cases p with
  | top => exact ⟨_, Step.swap s⟩
  | drain ids =>
    cases ids with
    | nil => exact ⟨_, Step.park s⟩
    | cons id rest =>
      cases h : mapGet s.tasks id with
      | none => exact ⟨_, Step.skipAbsent s id rest h⟩
      | some e => exact ⟨_, Step.takeEntry s id rest e h⟩
  | polling id e rest =>
    cases h : e.task.pollResult with
    | Pending => exact ⟨_, Step.finishPending s id e rest h⟩
    | Done => exact ⟨_, Step.finishDone s id e rest h⟩
  | parked => exact ⟨_, Step.unpark s⟩

theorem step_preserves_notBoth (c c' : Config) (h : Step c c') (hc : NotBoth c) :
    NotBoth c' := by
  cases h with
  | swap s => intro id e rest heq; cases heq
  | skipAbsent s id rest h => intro id' e' rest' heq; cases heq
  | takeEntry s id rest e h =>
    intro id' e' rest' heq
    injection heq with h1 h2 h3
    subst h1
    exact mapGet_remove_self s.tasks _
  | finishPending s id e rest h => intro id' e' rest' heq; cases heq
  | finishDone s id e rest h => intro id' e' rest' heq; cases heq
  | park s => intro id' e' rest' heq; cases heq
  | unpark s => intro id' e' rest' heq; cases heq
  | extWake p s id =>
    intro id' e' rest' heq
    rw [wake_task_tasks]
    exact hc id' e' rest' heq

theorem step_finish_effect (s : ExecState) (id : Nat) (e : TaskEntry) (rest : List Nat)
    (c' : Config) (h : Step ⟨Phase.polling id e rest, s⟩ c')
    (hc : NotBoth ⟨Phase.polling id e rest, s⟩) (hfin : c'.phase = Phase.drain rest) :
    (e.task.pollResult = Async.Pending →
      mapGet c'.state.tasks id = some { e with task := e.task.afterPoll }) ∧
    (e.task.pollResult = Async.Done →
      mapGet c'.state.tasks id = none ∧
        (id ∈ c'.state.ready → id ∈ s.ready ∨ id ∈ e.task.pollWakes)) := by
  cases h with
  | finishPending _ _ _ _ h₀ =>
    constructor
    · intro _
      exact mapGet_insert_self _ id _
    · intro hd
      rw [h₀] at hd
      cases hd
  | finishDone _ _ _ _ h₀ =>
    constructor
    · intro hp
      rw [h₀] at hp
      cases hp
    · intro _
      constructor
      · rw [applyWakes_tasks]
        exact hc id e rest rfl
      · intro hr
        exact (applyWakes_ready_mem _ _ id).mp hr
  | extWake p s₀ id₀ =>
    cases hfin

/-!  Claim theorems. -/

/-- C1: in every run-loop iteration the whole ready set is swapped out for an
empty one before polling (first conjunct, the structural shape of `runIter`);
each id of the captured snapshot has its entry removed and polled, a `Pending`
task being reinserted into the registry with its state advanced by exactly one
poll and a `Done` task being dropped permanently (third conjunct); ids outside
the snapshot are untouched (second conjunct); and everything in the ready set
after the batch stems from a wake call made during the batch — by a polled
task or externally — never from the drained snapshot itself (fourth
conjunct). -/
theorem claim_run_loop_batch (s : ExecState) (ext : List Nat)
    (hready : s.ready.Nodup) :
    runIter s ext = applyWakes (drainBatch { s with ready := [] } s.ready) ext ∧
    (∀ id, id ∉ s.ready → mapGet (runIter s ext).tasks id = mapGet s.tasks id) ∧
    (∀ id e, id ∈ s.ready → mapGet s.tasks id = some e →
      (e.task.pollResult = Async.Pending →
        mapGet (runIter s ext).tasks id = some { e with task := e.task.afterPoll }) ∧
      (e.task.pollResult = Async.Done →
        mapGet (runIter s ext).tasks id = none)) ∧
    (∀ a, a ∈ (runIter s ext).ready →
      a ∈ ext ∨ ∃ i, i ∈ s.ready ∧ ∃ e, mapGet s.tasks i = some e ∧ a ∈ e.task.pollWakes) := by
  refine ⟨rfl, ?_, ?_, ?_⟩
  · intro id h
    exact runIter_get_not_ready s ext id h
  · intro id e hmem he
    exact ⟨fun hp => runIter_pending s ext id e hready hmem he hp,
      fun hd => runIter_done s ext id e hready hmem he hd⟩
  · intro a ha
    exact runIter_ready_sub s ext a hready ha

/-- C1 witness: a singleton executor whose one ready task reports `Pending`
without waking anyone: after the batch the task is back in the registry with
its poll count advanced, and the ready set is empty. -/
theorem claim_run_loop_batch_witness :
    mapGet (runIter (ExecState.mk 1
        [(0, TaskEntry.mk (ToyTask.mk (fun _ => (Async.Pending, [])) 0) (Waker.mk 0))]
        [0]) []).tasks 0 =
      some (TaskEntry.mk (ToyTask.mk (fun _ => (Async.Pending, [])) 1) (Waker.mk 0)) := by
  have h := claim_run_loop_batch (ExecState.mk 1
      [(0, TaskEntry.mk (ToyTask.mk (fun _ => (Async.Pending, [])) 0) (Waker.mk 0))]
      [0]) [] (by decide)
  exact (h.2.2.1 0 (TaskEntry.mk (ToyTask.mk (fun _ => (Async.Pending, [])) 0) (Waker.mk 0))
    (by decide) rfl).1 rfl

/-- C5: invoking the same wake handle `n ≥ 2` times before the ready set is
drained leaves the state exactly as a single invocation would (readiness is a
deduplicating set), and on the next batch the task is polled exactly once: its
entry afterwards carries a poll count advanced by exactly one (if `Pending`) or
is gone after that single poll (if `Done`). -/
theorem claim_wake_idempotent (s : ExecState) (id n : Nat) (e : TaskEntry)
    (ext : List Nat) (hn : 2 ≤ n) (hready : s.ready.Nodup)
    (he : mapGet s.tasks id = some e) :
    wakeN s id n = s.wake_task id ∧
    (e.task.pollResult = Async.Pending →
      mapGet (runIter (wakeN s id n) ext).tasks id =
        some { e with task := e.task.afterPoll }) ∧
    (e.task.pollResult = Async.Done →
      mapGet (runIter (wakeN s id n) ext).tasks id = none) := by
  have h1 : wakeN s id n = s.wake_task id := wakeN_ge_one s id n (Nat.le_of_succ_le hn)
  have hnd : (s.wake_task id).ready.Nodup := readyInsert_nodup s.ready id hready
  have hmem : id ∈ (s.wake_task id).ready :=
    (wake_task_ready_mem s id id).mpr (Or.inr rfl)
  have he' : mapGet (s.wake_task id).tasks id = some e := by
    rw [wake_task_tasks]; exact he
  refine ⟨h1, ?_, ?_⟩
  · intro hp
    rw [h1]
    exact runIter_pending (s.wake_task id) ext id e hnd hmem he' hp
  · intro hd
    rw [h1]
    exact runIter_done (s.wake_task id) ext id e hnd hmem he' hd

/-- C5 witness: waking task 0 three times equals waking it once, and the next
batch polls it exactly once (count 0 → 1). -/
theorem claim_wake_idempotent_witness :
    wakeN (ExecState.mk 1
        [(0, TaskEntry.mk (ToyTask.mk (fun _ => (Async.Pending, [])) 0) (Waker.mk 0))]
        []) 0 3 =
      (ExecState.mk 1
        [(0, TaskEntry.mk (ToyTask.mk (fun _ => (Async.Pending, [])) 0) (Waker.mk 0))]
        []).wake_task 0 := by
  have h := claim_wake_idempotent (ExecState.mk 1
      [(0, TaskEntry.mk (ToyTask.mk (fun _ => (Async.Pending, [])) 0) (Waker.mk 0))]
      []) 0 3 (TaskEntry.mk (ToyTask.mk (fun _ => (Async.Pending, [])) 0) (Waker.mk 0))
      [] (by decide) (by decide) rfl
  exact h.1

/-- C6: an id in the drained snapshot whose entry is absent from the registry
is skipped without any effect (first conjunct — `pollOne` is the loop body, so
no panic is even expressible there); waking a completed (hence absent) task
touches neither the registry nor the id counter, and the task is not
resurrected by the following batch. -/
theorem claim_wake_after_completion (s : ExecState) (id : Nat) (ext : List Nat)
    (habsent : mapGet s.tasks id = none) :
    pollOne s id = s ∧
    (s.wake_task id).tasks = s.tasks ∧
    (s.wake_task id).next_id = s.next_id ∧
    mapGet (runIter (s.wake_task id) ext).tasks id = none := by
  refine ⟨pollOne_absent s id habsent, wake_task_tasks s id, wake_task_next_id s id, ?_⟩
  apply runIter_absent
  rw [wake_task_tasks]
  exact habsent

/-- C6 witness: waking the completed (absent) task 7 of an executor holding
only task 3 is a no-op and the next batch does not resurrect it. -/
theorem claim_wake_after_completion_witness :
    pollOne (ExecState.mk 8
        [(3, TaskEntry.mk (ToyTask.mk (fun _ => (Async.Pending, [])) 0) (Waker.mk 3))]
        []) 7 =
      ExecState.mk 8
        [(3, TaskEntry.mk (ToyTask.mk (fun _ => (Async.Pending, [])) 0) (Waker.mk 3))]
        [] := by
  have h := claim_wake_after_completion (ExecState.mk 8
      [(3, TaskEntry.mk (ToyTask.mk (fun _ => (Async.Pending, [])) 0) (Waker.mk 3))]
      []) 7 [] rfl
  exact h.1

/-- C7: along every step of the run-loop machine the exclusivity invariant is
preserved — a task id being polled is never simultaneously in the registry
(the entry is removed before the poll) — and when the in-flight poll finishes,
a `Pending` result reinserts the entry (state advanced by the one poll) while
a `Done` result leaves the id permanently absent; the completion-removal
itself never puts the id into the ready set (it can only be there through an
earlier membership or a wake emitted by the poll). -/
theorem claim_polling_exclusive (c c' : Config) (h : Step c c') (hnb : NotBoth c) :
    NotBoth c' ∧
    (∀ s id e rest, c = Config.mk (Phase.polling id e rest) s →
      c'.phase = Phase.drain rest →
      (e.task.pollResult = Async.Pending →
        mapGet c'.state.tasks id = some { e with task := e.task.afterPoll }) ∧
      (e.task.pollResult = Async.Done →
        mapGet c'.state.tasks id = none ∧
          (id ∈ c'.state.ready → id ∈ s.ready ∨ id ∈ e.task.pollWakes))) := by
  refine ⟨step_preserves_notBoth c c' h hnb, ?_⟩
  intro s id e rest hceq hfin
  subst hceq
  exact step_finish_effect s id e rest c' h hnb hfin

/-- C7 witness: the swap step out of the loop top on a concrete executor
preserves the exclusivity invariant. -/
theorem claim_polling_exclusive_witness :
    NotBoth (Config.mk (Phase.drain ([] : List Nat)) (ExecState.mk 0 [] [])) := by
  have h := claim_polling_exclusive
      (Config.mk Phase.top (ExecState.mk 0 [] []))
      (Config.mk (Phase.drain ([] : List Nat)) (ExecState.mk 0 [] []))
      (Step.swap (ExecState.mk 0 [] []))
      (by intro id e rest heq; cases heq)
  exact h.1

/-- C8: `spawn` bumps the monotone id counter by one; the allocated id was not
in use (given every registered key is below the counter — the invariant spawn
itself preserves, fifth conjunct, so ids are never reused); the new entry —
the task plus its freshly built wake handle carrying the id — is in the
registry; the id is marked ready; other entries are untouched; and the next
run-loop iteration polls the new task at least (exactly) once. -/
theorem claim_spawn_fresh (s : ExecState) (t : ToyTask)
    (hb : ∀ k, (mapGet s.tasks k).isSome → k < s.next_id)
    (hready : s.ready.Nodup) :
    (spawn s t).next_id = s.next_id + 1 ∧
    mapGet s.tasks s.next_id = none ∧
    mapGet (spawn s t).tasks s.next_id =
      some (TaskEntry.mk t (Waker.mk s.next_id)) ∧
    s.next_id ∈ (spawn s t).ready ∧
    (∀ k, (mapGet (spawn s t).tasks k).isSome → k < (spawn s t).next_id) ∧
    (∀ k, k ≠ s.next_id → mapGet (spawn s t).tasks k = mapGet s.tasks k) ∧
    (∀ ext,
      (t.pollResult = Async.Pending →
        mapGet (runIter (spawn s t) ext).tasks s.next_id =
          some (TaskEntry.mk t.afterPoll (Waker.mk s.next_id))) ∧
      (t.pollResult = Async.Done →
        mapGet (runIter (spawn s t) ext).tasks s.next_id = none)) := by
  have hfresh : mapGet s.tasks s.next_id = none := by
    cases hm : mapGet s.tasks s.next_id with
    | none => rfl
    | some e =>
      have : s.next_id < s.next_id := hb s.next_id (by rw [hm]; rfl)
      exact absurd this (Nat.lt_irrefl _)
  have hget : mapGet (spawn s t).tasks s.next_id =
      some (TaskEntry.mk t (Waker.mk s.next_id)) := spawn_get_new s t
  have hmem : s.next_id ∈ (spawn s t).ready :=
    (spawn_ready_mem s t s.next_id).mpr (Or.inr rfl)
  have hnd : (spawn s t).ready.Nodup := spawn_ready_nodup s t hready
  refine ⟨spawn_next_id s t, hfresh, hget, hmem, ?_, ?_, ?_⟩
  · intro k hk
    by_cases hkid : k = s.next_id
    · rw [hkid, spawn_next_id]
      exact Nat.lt_succ_self _
    · rw [spawn_get_other s t k hkid] at hk
      rw [spawn_next_id]
      exact Nat.lt_succ_of_lt (hb k hk)
  · intro k hk
    exact spawn_get_other s t k hk
  · intro ext
    constructor
    · intro hp
      exact runIter_pending (spawn s t) ext s.next_id
        (TaskEntry.mk t (Waker.mk s.next_id)) hnd hmem hget hp
    · intro hd
      exact runIter_done (spawn s t) ext s.next_id
        (TaskEntry.mk t (Waker.mk s.next_id)) hnd hmem hget hd

/-- C8 witness: spawning onto a fresh executor allocates id 0, registers the
entry and marks it ready. -/
theorem claim_spawn_fresh_witness :
    mapGet (spawn (ExecState.mk 0 [] [])
        (ToyTask.mk (fun _ => (Async.Pending, [])) 0)).tasks 0 =
      some (TaskEntry.mk (ToyTask.mk (fun _ => (Async.Pending, [])) 0) (Waker.mk 0)) ∧
    0 ∈ (spawn (ExecState.mk 0 [] [])
        (ToyTask.mk (fun _ => (Async.Pending, [])) 0)).ready := by
  have h := claim_spawn_fresh (ExecState.mk 0 [] [])
      (ToyTask.mk (fun _ => (Async.Pending, [])) 0)
      (by intro k hk; cases hk) (by decide)
  exact ⟨h.2.2.1, h.2.2.2.1⟩

/-- C9: the run loop never returns — from every configuration of the run-loop
machine a further step exists, so there is no exit condition (first conjunct);
after the batch is fully processed the only move of the loop itself is to park
the carrier thread (second conjunct — no busy re-entry into the loop), and a
parked thread can only be unparked back to the loop top by a wake (third
conjunct); finally a spurious wakeup is harmless: an iteration entered with an
empty ready set and no external wakes leaves the state exactly unchanged
(fourth conjunct). -/
theorem claim_run_never_exits :
    (∀ c : Config, ∃ c', Step c c') ∧
    (∀ (s : ExecState) (c' : Config), Step (Config.mk (Phase.drain []) s) c' →
      c' = Config.mk Phase.parked s ∨
        ∃ id, c' = Config.mk (Phase.drain []) (s.wake_task id)) ∧
    (∀ (s : ExecState) (c' : Config), Step (Config.mk Phase.parked s) c' →
      c' = Config.mk Phase.top s ∨
        ∃ id, c' = Config.mk Phase.parked (s.wake_task id)) ∧
    (∀ s : ExecState, s.ready = [] → runIter s [] = s) := by
  refine ⟨step_progress, ?_, ?_, ?_⟩
  · intro s c' h
    cases h with
    | park _ => exact Or.inl rfl
    | extWake _ _ id => exact Or.inr ⟨id, rfl⟩
  · intro s c' h
    cases h with
    | unpark _ => exact Or.inl rfl
    | extWake _ _ id => exact Or.inr ⟨id, rfl⟩
  · intro s hr
    obtain ⟨n, tk, rd⟩ := s
    simp only at hr
    subst hr
    rfl

/-- C9 witness: a concrete parked-free configuration can always step, and an
empty iteration on a concrete idle executor is the identity. -/
theorem claim_run_never_exits_witness :
    (∃ c', Step (Config.mk Phase.top (ExecState.mk 0 [] [])) c') ∧
    runIter (ExecState.mk 0 [] []) [] = ExecState.mk 0 [] [] :=
  ⟨claim_run_never_exits.1 _, claim_run_never_exits.2.2.2 _ rfl⟩

/-- C2: in every timer-worker cycle the smallest deadline is the one
inspected: a due minimum (≤ now) is removed and its waker fired (first
conjunct); a registration arriving during the timed wait is inserted — map
order maintained — with nothing fired, so the next cycle re-evaluates from the
top (second conjunct); any waker fired by any cycle belongs to the due global
minimum of the deadline map (third conjunct); hence of two registered
deadlines, the later one is never the one fired and survives the cycle intact,
regardless of registration order (fourth conjunct). -/
theorem claim_timer_earliest_first (active : List (Nat × Nat)) (now : Nat)
    (ev : ChanEvent) (hs : btSorted active) :
    (∀ first w, btMinKey active = some first → first ≤ now →
      btLookup active first = some w →
      workStep active now ev = WorkOutcome.ok (btRemove active first) (some w)) ∧
    (∀ first r, btMinKey active = some first → ¬ first ≤ now →
      btLookup active r.at_ = none →
      workStep active now (ChanEvent.msg r) =
        WorkOutcome.ok (btInsert active r.at_ r.wake) none ∧
      btSorted (btInsert active r.at_ r.wake)) ∧
    (∀ act w, workStep active now ev = WorkOutcome.ok act (some w) →
      ∃ k, btMinKey active = some k ∧ k ≤ now ∧ btLookup active k = some w ∧
        act = btRemove active k ∧
        ∀ k2 w2, btLookup active k2 = some w2 → k ≤ k2) ∧
    (∀ t1 t2 w1 w2, btLookup active t1 = some w1 → btLookup active t2 = some w2 →
      t1 < t2 → ∀ act w, workStep active now ev = WorkOutcome.ok act (some w) →
        btLookup act t2 = some w2) := by
  have hfired : ∀ act w, workStep active now ev = WorkOutcome.ok act (some w) →
      ∃ k, btMinKey active = some k ∧ k ≤ now ∧ btLookup active k = some w ∧
        act = btRemove active k ∧
        ∀ k2 w2, btLookup active k2 = some w2 → k ≤ k2 := by
    intro act w h
    obtain ⟨k, hk, hdue, hw, hact⟩ := workStep_fired_is_min active now ev act w h
    exact ⟨k, hk, hdue, hw, hact, fun k2 w2 h2 => btMinKey_le active hs k hk k2 w2 h2⟩
  refine ⟨?_, ?_, hfired, ?_⟩
  · intro first w hmin hdue hw
    exact workStep_fire_due active now ev first w hmin hdue hw
  · intro first r hmin hnotdue hfresh
    exact ⟨workStep_enroll_new active now r first hmin hnotdue hfresh,
      btInsert_sorted active r.at_ r.wake hs⟩
  · intro t1 t2 w1 w2 h1 h2 hlt act w h
    obtain ⟨k, hk, hdue, hw, hact, hmin⟩ := hfired act w h
    have hk1 : k ≤ t1 := hmin t1 w1 h1
    have hne : t2 ≠ k := by
      intro hc
      subst hc
      exact absurd (Nat.lt_of_le_of_lt hk1 hlt) (Nat.lt_irrefl t2)
    rw [hact]
    rw [btRemove_lookup_other active k t2 hne]
    exact h2

/-- C2 witness: with deadlines registered in the order 300 then 100 and the
clock at 150, the cycle fires the waker of deadline 100 — the earlier one —
and deadline 300 survives. -/
theorem claim_timer_earliest_first_witness :
    workStep [(100, 2), (300, 1)] 150 ChanEvent.silent =
      WorkOutcome.ok (btRemove [(100, 2), (300, 1)] 100) (some 2) ∧
    btLookup (btRemove [(100, 2), (300, 1)] 100) 300 = some 1 := by
  have h := claim_timer_earliest_first [(100, 2), (300, 1)] 150 ChanEvent.silent
    (by
      unfold btSorted
      refine List.pairwise_cons.mpr ⟨?_, List.pairwise_singleton _ _⟩
      intro b hb
      rw [List.mem_singleton.mp hb]
      decide)
  refine ⟨h.1 100 2 rfl (by decide) rfl, ?_⟩
  exact h.2.2.2 100 300 2 1 rfl rfl (by decide)
    (btRemove [(100, 2), (300, 1)] 100) 2 (h.1 100 2 rfl (by decide) rfl)

/-- C3: enrolling a registration whose deadline instant is already present in
the worker's map hits the fatal assertion — `enroll` panics (modelled `none`)
instead of silently dropping a wakeup. -/
theorem claim_duplicate_deadline_fatal (active : List (Nat × Nat))
    (r : Registration) (h : (btLookup active r.at_).isSome) :
    enroll active r = none := by
  unfold enroll
  rw [if_pos h]

/-- C3 witness: enrolling a second registration at the already-occupied
instant 5 panics. -/
theorem claim_duplicate_deadline_fatal_witness :
    enroll [(5, 1)] (Registration.mk 5 2) = none :=
  claim_duplicate_deadline_fatal [(5, 1)] (Registration.mk 5 2) (by decide)

/-- C4 counterexample: the claim says a fully dropped sending side is handled
by terminating the worker cleanly, without a crash.  On the code it is not: in
the branch with no registered deadline, `Worker::work` calls
`self.rx.recv().unwrap()` (main.rs line 190), and with all senders dropped the
receive fails and the `unwrap` panics — the concrete cycle below is fatal. -/
theorem cex_channel_drop_panics :
    workStep [] 0 ChanEvent.closed = WorkOutcome.fatal := rfl

/-- C4 amended: if the sending side is fully dropped while the worker blocks
on the unconditional `recv()` (empty deadline map), the failed receive panics
the worker thread via `unwrap` — a crash, not a clean termination; in the
timed-wait branch (a pending deadline not yet due) a disconnection is silently
swallowed by the `if let Ok`, like a timeout, and the cycle just loops. -/
theorem claim_channel_drop_amended :
    (∀ now, workStep [] now ChanEvent.closed = WorkOutcome.fatal) ∧
    (∀ active now first, btMinKey active = some first → ¬ first ≤ now →
      workStep active now ChanEvent.closed = WorkOutcome.ok active none) := by
  refine ⟨fun now => workStep_closed_empty now, ?_⟩
  intro active now first hmin hnotdue
  exact workStep_closed_waiting active now first hmin hnotdue

/-- C4 amended witness: with only a future deadline 10 registered and the
clock at 0, a disconnection is swallowed; with nothing registered the worker
panics. -/
theorem claim_channel_drop_amended_witness :
    workStep [(10, 1)] 0 ChanEvent.closed = WorkOutcome.ok [(10, 1)] none ∧
    workStep [] 5 ChanEvent.closed = WorkOutcome.fatal :=
  ⟨claim_channel_drop_amended.2 [(10, 1)] 0 10 rfl (by decide),
    claim_channel_drop_amended.1 5⟩

/-- C10: `ToyTimer::register` is not infallible — once the worker's receiving
side is gone the `send(...).unwrap()` panics (modelled `none`), and while the
worker lives the registration is delivered (no error value exists to return
and nothing is silently discarded). -/
theorem claim_register_panics_on_dead_worker :
    (∀ at_ wake, register false at_ wake = none) ∧
    (∀ at_ wake, register true at_ wake = some ()) :=
  ⟨fun _ _ => rfl, fun _ _ => rfl⟩

end ToyFutures
